import Mathlib

/-!
Verification of the `microstr` crate: a fixed-capacity, stack-allocated
UTF-8 string (`MicroStr<CAP>`, src/lib.rs).

Shallow embedding conventions:
* a byte (`u8`) is a `Nat` (always < 256 in every reachable state);
* the backing array `buffer: [u8; CAP]` is a `List Nat` of length `CAP`;
* a Rust `char` is a `Nat` Unicode scalar value (`GoodChar`);
* a Rust `&str` is a valid UTF-8 byte list, i.e. `utf8Encode cs` for a
  list `cs` of scalar values (`ValidUtf8`);
* `Result<(), ()>` is `Bool` (`true` = `Ok`), `Result<(), usize>` is
  `Option Nat` (`none` = `Ok(())`, `some n` = `Err(n)`).
-/

namespace Micro

/-- The test `byte & 0b1100_0000 == 0b1000_0000` of `is_utf8_continuation`
(src/lib.rs:762).  For a `u8` value (< 256) the mask test is exactly
membership in `[0x80, 0xC0)`. -/
def is_utf8_continuation (b : Nat) : Bool := decide (128 ≤ b ∧ b < 192)

/-- Model of `char::len_utf8` for a scalar value: the number of bytes of its UTF-8
encoding. -/
def utf8Len (c : Nat) : Nat :=
  if c < 0x80 then 1
  else if c < 0x800 then 2
  else if c < 0x10000 then 3
  else 4

/-- Standard UTF-8 encoding of one scalar value (what `char_to_bytes_utf8`
at src/lib.rs:784 produces in its first `len_utf8` bytes). -/
def encodeChar (c : Nat) : List Nat :=
  if c < 0x80 then [c]
  else if c < 0x800 then [0xC0 + c / 64, 0x80 + c % 64]
  else if c < 0x10000 then [0xE0 + c / 4096, 0x80 + c / 64 % 64, 0x80 + c % 64]
  else [0xF0 + c / 262144, 0x80 + c / 4096 % 64, 0x80 + c / 64 % 64, 0x80 + c % 64]

/-- UTF-8 encoding of a sequence of scalar values. -/
def utf8Encode : List Nat → List Nat
  | [] => []
  | c :: cs => encodeChar c ++ utf8Encode cs

/-- A Rust `char`: a Unicode scalar value (excludes surrogates). -/
def GoodChar (c : Nat) : Prop := c < 0xD800 ∨ (0xE000 ≤ c ∧ c < 0x110000)

/-- All elements are Unicode scalar values. -/
def GoodStr (cs : List Nat) : Prop := ∀ c ∈ cs, GoodChar c

/-- A byte list is valid UTF-8: it is the encoding of some sequence of
scalar values.  This is what the Rust type `&str` guarantees. -/
def ValidUtf8 (l : List Nat) : Prop := ∃ cs, GoodStr cs ∧ l = utf8Encode cs

instance : DecidablePred GoodChar := fun c => by
  unfold GoodChar; infer_instance

instance : DecidablePred GoodStr := fun cs => by
  unfold GoodStr; infer_instance

/-- Byte-length step used when iterating the decoded characters of valid
UTF-8 content (Rust's `str::chars`): the encoded length determined by the
lead byte. -/
def leadLen (b : Nat) : Nat :=
  if b < 0x80 then 1
  else if b < 0xE0 then 2
  else if b < 0xF0 then 3
  else 4

/-- Structural UTF-8 validity check on a byte list, as a byte-at-a-time
state machine: the first argument is the number of continuation bytes
still owed by the current character. -/
def utf8CheckAux : Nat → List Nat → Bool
  | 0, [] => true
  | _ + 1, [] => false
  | 0, b :: rest =>
    if b < 0x80 then utf8CheckAux 0 rest
    else if b < 0xC2 then false
    else if b < 0xE0 then utf8CheckAux 1 rest
    else if b < 0xF0 then utf8CheckAux 2 rest
    else if b < 0xF5 then utf8CheckAux 3 rest
    else false
  | n + 1, b :: rest => if is_utf8_continuation b then utf8CheckAux n rest else false

/-- A byte list passes the structural UTF-8 check (every lead byte in
range and followed by exactly the right number of continuation bytes). -/
def utf8Check (l : List Nat) : Bool := utf8CheckAux 0 l

/- ### Structure of the encoding of a single scalar value -/

theorem utf8Len_pos (c : Nat) : 1 ≤ utf8Len c := by
  unfold utf8Len
  split
  · omega
  · split
    · omega
    · split <;> omega

theorem utf8Len_le_four (c : Nat) : utf8Len c ≤ 4 := by
  unfold utf8Len
  split
  · omega
  · split
    · omega
    · split <;> omega

theorem encodeChar_length (c : Nat) : (encodeChar c).length = utf8Len c := by
  unfold encodeChar utf8Len
  split
  · rfl
  · split
    · rfl
    · split <;> rfl

theorem encodeChar_ne_nil (c : Nat) : encodeChar c ≠ [] := by
  intro h
  have hl := encodeChar_length c
  rw [h] at hl
  simp only [List.length_nil] at hl
  have hp := utf8Len_pos c
  omega

/-- The first byte of `encodeChar c` is not a continuation byte. -/
theorem encodeChar_head_not_cont (c : Nat) (hc : c < 0x110000) :
    is_utf8_continuation ((encodeChar c).getD 0 0) = false := by
  unfold encodeChar
  split
  · simp only [List.getD_cons_zero, is_utf8_continuation, decide_eq_false_iff_not]
    omega
  · split
    · have h1 : 2 ≤ c / 64 := by omega
      have h2 : c / 64 ≤ 31 := by omega
      simp only [List.getD_cons_zero, is_utf8_continuation, decide_eq_false_iff_not]
      omega
    · split
      · have h2 : c / 4096 ≤ 15 := by omega
        simp only [List.getD_cons_zero, is_utf8_continuation, decide_eq_false_iff_not]
        omega
      · have h2 : c / 262144 ≤ 4 := by omega
        simp only [List.getD_cons_zero, is_utf8_continuation, decide_eq_false_iff_not]
        omega

/-- The lead byte of `encodeChar c` determines the encoded length. -/
theorem encodeChar_head_leadLen (c : Nat) (hc : c < 0x110000) :
    leadLen ((encodeChar c).getD 0 0) = utf8Len c := by
  unfold encodeChar utf8Len
  split
  · simp only [List.getD_cons_zero, leadLen]
    split <;> omega
  · split
    · have h1 : 2 ≤ c / 64 := by omega
      have h2 : c / 64 ≤ 31 := by omega
      simp only [List.getD_cons_zero, leadLen]
      split
      · omega
      · split <;> omega
    · split
      · have h2 : c / 4096 ≤ 15 := by omega
        simp only [List.getD_cons_zero, leadLen]
        split
        · omega
        · split
          · omega
          · split <;> omega
      · have h2 : c / 262144 ≤ 4 := by omega
        simp only [List.getD_cons_zero, leadLen]
        split
        · omega
        · split
          · omega
          · split <;> omega

/-- Every byte of `encodeChar c` after the first is a continuation byte. -/
theorem encodeChar_tail_cont (c : Nat) (b : Nat) (hb : b ∈ (encodeChar c).tail) :
    is_utf8_continuation b = true := by
  unfold encodeChar at hb
  simp only [is_utf8_continuation, decide_eq_true_eq]
  split at hb
  · simp at hb
  · split at hb
    · simp only [List.tail_cons, List.mem_singleton] at hb
      subst hb
      omega
    · split at hb
      · simp only [List.tail_cons, List.mem_cons, List.mem_singleton] at hb
        rcases hb with h | h | h
        · subst h; omega
        · subst h; omega
        · simp at h
      · simp only [List.tail_cons, List.mem_cons, List.mem_singleton] at hb
        rcases hb with h | h | h | h
        · subst h; omega
        · subst h; omega
        · subst h; omega
        · simp at h

/- ### Structure of encoded sequences -/

theorem utf8Encode_append (l1 l2 : List Nat) :
    utf8Encode (l1 ++ l2) = utf8Encode l1 ++ utf8Encode l2 := by
  induction l1 with
  | nil => rfl
  | cons c t ih =>
    simp only [List.cons_append, utf8Encode, List.append_eq, ih, List.append_assoc]

/-- Every byte position in an encoded sequence lies inside the encoding of
one of its characters. -/
theorem pos_split (cs : List Nat) (p : Nat) (hp : p < (utf8Encode cs).length) :
    ∃ cs1 c cs2, cs = cs1 ++ c :: cs2 ∧
      (utf8Encode cs1).length ≤ p ∧ p < (utf8Encode cs1).length + utf8Len c := by
  induction cs generalizing p with
  | nil => simp [utf8Encode] at hp
  | cons c t ih =>
    by_cases hc : p < utf8Len c
    · exact ⟨[], c, t, rfl, by simp [utf8Encode], by simpa [utf8Encode] using hc⟩
    · have hlen : (utf8Encode (c :: t)).length = utf8Len c + (utf8Encode t).length := by
        simp [utf8Encode, encodeChar_length]
      obtain ⟨cs1, c', cs2, hdec, h1, h2⟩ := ih (p - utf8Len c) (by omega)
      refine ⟨c :: cs1, c', cs2, by rw [hdec, List.cons_append], ?_, ?_⟩
      · simp only [utf8Encode, List.length_append, encodeChar_length]
        omega
      · simp only [utf8Encode, List.length_append, encodeChar_length]
        omega

/-- Byte lookup inside the encoding of the character at a decomposition
point. -/
theorem getD_encode_at (cs1 : List Nat) (c : Nat) (cs2 : List Nat) (j : Nat)
    (hj : j < utf8Len c) :
    (utf8Encode (cs1 ++ c :: cs2)).getD ((utf8Encode cs1).length + j) 0
      = (encodeChar c).getD j 0 := by
  rw [utf8Encode_append]
  rw [List.getD_append_right (utf8Encode cs1) _ 0 _ (by omega)]
  have h1 : (utf8Encode cs1).length + j - (utf8Encode cs1).length = j := by omega
  rw [h1]
  show (encodeChar c ++ utf8Encode cs2).getD j 0 = (encodeChar c).getD j 0
  exact List.getD_append _ _ 0 j (by rw [encodeChar_length]; omega)

/-- The byte at the start of a character in an encoded sequence is a lead
byte. -/
theorem lead_byte_at (cs1 : List Nat) (c : Nat) (cs2 : List Nat) (hc : c < 0x110000) :
    is_utf8_continuation
      ((utf8Encode (cs1 ++ c :: cs2)).getD ((utf8Encode cs1).length) 0) = false := by
  have h := getD_encode_at cs1 c cs2 0 (utf8Len_pos c)
  rw [Nat.add_zero] at h
  rw [h]
  exact encodeChar_head_not_cont c hc

/-- A byte strictly inside the encoding of a character is a continuation
byte. -/
theorem cont_byte_at (cs1 : List Nat) (c : Nat) (cs2 : List Nat) (j : Nat)
    (hj1 : 1 ≤ j) (hj2 : j < utf8Len c) :
    is_utf8_continuation
      ((utf8Encode (cs1 ++ c :: cs2)).getD ((utf8Encode cs1).length + j) 0) = true := by
  rw [getD_encode_at cs1 c cs2 j hj2]
  obtain ⟨b, t, hbt⟩ := List.exists_cons_of_ne_nil (encodeChar_ne_nil c)
  apply encodeChar_tail_cont c
  rw [hbt]
  obtain ⟨j', rfl⟩ : ∃ j', j = j' + 1 := ⟨j - 1, by omega⟩
  rw [List.getD_cons_succ]
  simp only [List.tail_cons]
  have hlen : t.length = utf8Len c - 1 := by
    have := encodeChar_length c
    rw [hbt] at this
    simp at this
    omega
  have hj' : j' < t.length := by omega
  rw [List.getD_eq_getElem t 0 hj']
  exact t.getElem_mem hj'

/- ### The boundary-checked truncation of `&str` (src/lib.rs:728-757) -/

/-- The backward-walking loop of `<str as BoundaryCheckedTruncate>::truncate`
(src/lib.rs:744-754).  The third argument is the loop variable `i`
(initially `idx`); the Rust loop decrements `i`, returns `i` as soon as
`bytes[i]` is not a continuation byte, and also stops (returning `i`) when
`i ≤ idx - 4` or `i = 0`. -/
def scanBack (bytes : List Nat) (idx : Nat) : Nat → Nat
  | 0 => 0
  | i + 1 =>
    if is_utf8_continuation (bytes.getD i 0) = false then i
    else if i ≤ idx - 4 then i
    else scanBack bytes idx i

/-- Model of `<str as BoundaryCheckedTruncate>::truncate` (src/lib.rs:729-756):
given the bytes of a `&str` and a cut offset `idx`, returns the longest
byte-prefix at or before `idx` that does not end inside a multi-byte
character. -/
def strTruncate (bytes : List Nat) (idx : Nat) : List Nat :=
  if bytes.length ≤ idx then bytes
  else if idx = 0 then []
  else if is_utf8_continuation (bytes.getD idx 0) = false then bytes.take idx
  else bytes.take (scanBack bytes idx idx)

/-- Specification-side description of truncation to capacity: the longest
sequence of leading characters whose total encoded length fits in `a`
bytes. -/
def takeFit : List Nat → Nat → List Nat
  | [], _ => []
  | c :: cs, a => if utf8Len c ≤ a then c :: takeFit cs (a - utf8Len c) else []

theorem takeFit_length_le (cs : List Nat) (a : Nat) :
    (utf8Encode (takeFit cs a)).length ≤ a := by
  induction cs generalizing a with
  | nil => simp [takeFit, utf8Encode]
  | cons c t ih =>
    unfold takeFit
    split
    · simp only [utf8Encode, List.length_append, encodeChar_length]
      have := ih (a - utf8Len c)
      omega
    · simp [utf8Encode]

theorem takeFit_all (cs : List Nat) (a : Nat) (h : (utf8Encode cs).length ≤ a) :
    takeFit cs a = cs := by
  induction cs generalizing a with
  | nil => rfl
  | cons c t ih =>
    simp only [utf8Encode, List.length_append, encodeChar_length] at h
    unfold takeFit
    rw [if_pos (by omega), ih (a - utf8Len c) (by omega)]

/-- When the available byte count lands strictly inside the character at a
decomposition point, `takeFit` keeps exactly the characters before it. -/
theorem takeFit_at (cs1 : List Nat) (c : Nat) (cs2 : List Nat) (r : Nat)
    (hr : r < utf8Len c) :
    takeFit (cs1 ++ c :: cs2) ((utf8Encode cs1).length + r) = cs1 := by
  induction cs1 generalizing r with
  | nil =>
    simp only [List.nil_append, utf8Encode, List.length_nil, Nat.zero_add, takeFit]
    rw [if_neg (by omega)]
  | cons c0 t ih =>
    simp only [List.cons_append, takeFit, utf8Encode, List.append_eq,
      List.length_append, encodeChar_length]
    rw [if_pos (by have := utf8Len_pos c0; omega)]
    have h1 : utf8Len c0 + (utf8Encode t).length + r - utf8Len c0
        = (utf8Encode t).length + r := by omega
    rw [h1, ih r hr]

/-- The function `takeFit` keeps at least every whole-character group that fits. -/
theorem takeFit_extends (cs1 cs2 : List Nat) (a : Nat)
    (h : (utf8Encode cs1).length ≤ a) :
    ∃ t, takeFit (cs1 ++ cs2) a = cs1 ++ t := by
  induction cs1 generalizing a with
  | nil => exact ⟨takeFit cs2 a, rfl⟩
  | cons c0 t ih =>
    simp only [utf8Encode, List.length_append, encodeChar_length] at h
    simp only [List.cons_append, takeFit, List.append_eq]
    rw [if_pos (by omega)]
    obtain ⟨u, hu⟩ := ih (a - utf8Len c0) (by omega)
    exact ⟨u, by rw [hu]⟩

/-- When positions `(L, idx)` hold continuation bytes, position `L` holds a
lead byte, and `idx ≤ L + 3`, the backward scan started at `i ≤ idx` stops
exactly at `L`. -/
theorem scanBack_finds_lead (bytes : List Nat) (idx L : Nat)
    (hlead : is_utf8_continuation (bytes.getD L 0) = false)
    (hcont : ∀ p, L < p → p < idx → is_utf8_continuation (bytes.getD p 0) = true)
    (hgap : idx ≤ L + 3) :
    ∀ i, L < i → i ≤ idx → scanBack bytes idx i = L := by
  intro i
  induction i with
  | zero => omega
  | succ n ih =>
    intro h1 h2
    unfold scanBack
    rcases Nat.lt_or_ge L n with hn | hn
    · rw [if_neg (by rw [hcont n hn (by omega)]; simp), if_neg (by omega)]
      exact ih hn (by omega)
    · have hLn : L = n := by omega
      rw [hLn, if_pos (by rw [← hLn, hlead])]

/-- Central correctness result: on valid UTF-8 input, the backward
boundary scan of `<str as BoundaryCheckedTruncate>::truncate` keeps
exactly the longest sequence of leading characters that fits in `idx`
bytes. -/
theorem strTruncate_encode (cs : List Nat) (h : GoodStr cs) (idx : Nat) :
    strTruncate (utf8Encode cs) idx = utf8Encode (takeFit cs idx) := by
  unfold strTruncate
  by_cases hle : (utf8Encode cs).length ≤ idx
  · rw [if_pos hle, takeFit_all cs idx hle]
  · rw [if_neg hle]
    push_neg at hle
    by_cases h0 : idx = 0
    · rw [if_pos h0]
      subst h0
      cases cs with
      | nil => simp [utf8Encode] at hle
      | cons c t =>
        simp only [takeFit]
        rw [if_neg (by have := utf8Len_pos c; omega)]
        rfl
    · rw [if_neg h0]
      obtain ⟨cs1, c, cs2, hdec, hL, hU⟩ := pos_split cs idx hle
      have hcgood : GoodChar c := h c (by rw [hdec]; simp)
      have hc : c < 0x110000 := by
        rcases hcgood with h1 | h1
        · omega
        · omega
      subst hdec
      have hlen4 := utf8Len_le_four c
      have hfit : takeFit (cs1 ++ c :: cs2) ((utf8Encode cs1).length) = cs1 := by
        have := takeFit_at cs1 c cs2 0 (utf8Len_pos c)
        rwa [Nat.add_zero] at this
      rcases Nat.eq_or_lt_of_le hL with hEq | hLt
      · rw [if_pos (by rw [← hEq]; exact lead_byte_at cs1 c cs2 hc)]
        rw [← hEq, hfit, utf8Encode_append, List.take_left' rfl]
      · have hcont1 :
            is_utf8_continuation ((utf8Encode (cs1 ++ c :: cs2)).getD idx 0) = true := by
          have hci := cont_byte_at cs1 c cs2 (idx - (utf8Encode cs1).length)
            (by omega) (by omega)
          have harr : (utf8Encode cs1).length + (idx - (utf8Encode cs1).length) = idx := by
            omega
          rwa [harr] at hci
        rw [if_neg (by rw [hcont1]; simp)]
        have hscan :
            scanBack (utf8Encode (cs1 ++ c :: cs2)) idx idx = (utf8Encode cs1).length := by
          apply scanBack_finds_lead
          · exact lead_byte_at cs1 c cs2 hc
          · intro p hp1 hp2
            have hci := cont_byte_at cs1 c cs2 (p - (utf8Encode cs1).length)
              (by omega) (by omega)
            have harr : (utf8Encode cs1).length + (p - (utf8Encode cs1).length) = p := by
              omega
            rwa [harr] at hci
          · omega
          · omega
          · omega
        rw [hscan]
        have h2 : idx = (utf8Encode cs1).length + (idx - (utf8Encode cs1).length) := by omega
        rw [h2, takeFit_at cs1 c cs2 _ (by omega)]
        rw [utf8Encode_append, List.take_left' rfl]

/- ### Unique decoding: a valid byte-prefix cuts at a character boundary -/

theorem encodeChar_inj (c c' : Nat) (hc : c < 0x110000) (hc' : c' < 0x110000)
    (h : encodeChar c = encodeChar c') : c = c' := by
  unfold encodeChar at h
  split_ifs at h <;> (try simp at h) <;> omega

/-- If the encoding of one scalar sequence is a byte-prefix of the encoding
of another, the first sequence is a leading part of the second. -/
theorem encode_front (cs' : List Nat) :
    ∀ cs, GoodStr cs' → GoodStr cs →
      (∃ t, utf8Encode cs' ++ t = utf8Encode cs) → ∃ u, cs' ++ u = cs := by
  induction cs' with
  | nil =>
    intro cs _ _ _
    exact ⟨cs, rfl⟩
  | cons c' t' ih =>
    intro cs h' h hp
    obtain ⟨t, ht⟩ := hp
    cases cs with
    | nil =>
      exfalso
      simp only [utf8Encode, List.append_assoc, List.append_eq_nil] at ht
      exact encodeChar_ne_nil c' ht.1
    | cons c cst =>
      have hc' : c' < 0x110000 := by
        rcases h' c' (by simp) with h1 | h1
        · omega
        · omega
      have hc : c < 0x110000 := by
        rcases h c (by simp) with h1 | h1
        · omega
        · omega
      simp only [utf8Encode] at ht
      rw [List.append_assoc] at ht
      have hb : (encodeChar c').getD 0 0 = (encodeChar c).getD 0 0 := by
        have hb0 := congrArg (fun l => l.getD 0 0) ht
        simp only at hb0
        rw [List.getD_append _ _ 0 0 (by rw [encodeChar_length]; have := utf8Len_pos c'; omega),
          List.getD_append _ _ 0 0 (by rw [encodeChar_length]; have := utf8Len_pos c; omega)]
          at hb0
        exact hb0
      have hlen : utf8Len c' = utf8Len c := by
        rw [← encodeChar_head_leadLen c' hc', ← encodeChar_head_leadLen c hc, hb]
      obtain ⟨hE, hR⟩ := List.append_inj ht
        (by rw [encodeChar_length, encodeChar_length, hlen])
      have hcc : c' = c := encodeChar_inj c' c hc' hc hE
      subst hcc
      obtain ⟨u, hu⟩ := ih cst (fun x hx => h' x (by simp [hx]))
        (fun x hx => h x (by simp [hx])) ⟨t, hR⟩
      exact ⟨u, by rw [List.cons_append, hu]⟩

/-- Maximality: any valid-UTF-8 byte-prefix of `utf8Encode cs` of length at
most `a` is no longer than the part kept by `takeFit cs a`. -/
theorem valid_front_le (cs : List Nat) (h : GoodStr cs) (a : Nat) (p : List Nat)
    (hpre : ∃ t, p ++ t = utf8Encode cs) (hlen : p.length ≤ a) (hval : ValidUtf8 p) :
    p.length ≤ (utf8Encode (takeFit cs a)).length := by
  obtain ⟨cs', h', rfl⟩ := hval
  obtain ⟨u, hu⟩ := encode_front cs' cs h' h hpre
  subst hu
  obtain ⟨t2, ht2⟩ := takeFit_extends cs' u a hlen
  rw [ht2, utf8Encode_append, List.length_append]
  omega

/-- A continuation byte advances the checker state. -/
theorem utf8CheckAux_cont (n b : Nat) (l : List Nat) (hb : 128 ≤ b) (hb2 : b < 192) :
    utf8CheckAux (n + 1) (b :: l) = utf8CheckAux n l := by
  show (if is_utf8_continuation b then utf8CheckAux n l else false) = utf8CheckAux n l
  rw [if_pos (by simp [is_utf8_continuation]; omega)]

/-- The checker consumes the encoding of one scalar value and returns to
the idle state. -/
theorem utf8CheckAux_encodeChar (c : Nat) (hc : c < 0x110000) (rest : List Nat) :
    utf8CheckAux 0 (encodeChar c ++ rest) = utf8CheckAux 0 rest := by
  unfold encodeChar
  split_ifs with h1 h2 h3
  · show (if c < 0x80 then utf8CheckAux 0 rest
      else if c < 0xC2 then false
      else if c < 0xE0 then utf8CheckAux 1 rest
      else if c < 0xF0 then utf8CheckAux 2 rest
      else if c < 0xF5 then utf8CheckAux 3 rest
      else false) = utf8CheckAux 0 rest
    rw [if_pos h1]
  · have d1 : 2 ≤ c / 64 := by omega
    have d2 : c / 64 ≤ 31 := by omega
    show (if 0xC0 + c / 64 < 0x80 then _
      else if 0xC0 + c / 64 < 0xC2 then false
      else if 0xC0 + c / 64 < 0xE0 then utf8CheckAux 1 ((0x80 + c % 64) :: rest)
      else if 0xC0 + c / 64 < 0xF0 then utf8CheckAux 2 ((0x80 + c % 64) :: rest)
      else if 0xC0 + c / 64 < 0xF5 then utf8CheckAux 3 ((0x80 + c % 64) :: rest)
      else false) = utf8CheckAux 0 rest
    rw [if_neg (by omega), if_neg (by omega), if_pos (by omega)]
    rw [utf8CheckAux_cont 0 _ rest (by omega) (by omega)]
  · have d2 : c / 4096 ≤ 15 := by omega
    show (if 0xE0 + c / 4096 < 0x80 then _
      else if 0xE0 + c / 4096 < 0xC2 then false
      else if 0xE0 + c / 4096 < 0xE0 then _
      else if 0xE0 + c / 4096 < 0xF0 then
        utf8CheckAux 2 ((0x80 + c / 64 % 64) :: (0x80 + c % 64) :: rest)
      else if 0xE0 + c / 4096 < 0xF5 then _
      else false) = utf8CheckAux 0 rest
    rw [if_neg (by omega), if_neg (by omega), if_neg (by omega), if_pos (by omega)]
    rw [utf8CheckAux_cont 1 _ _ (by omega) (by omega)]
    rw [utf8CheckAux_cont 0 _ rest (by omega) (by omega)]
  · have d2 : c / 262144 ≤ 4 := by omega
    show (if 0xF0 + c / 262144 < 0x80 then _
      else if 0xF0 + c / 262144 < 0xC2 then false
      else if 0xF0 + c / 262144 < 0xE0 then _
      else if 0xF0 + c / 262144 < 0xF0 then _
      else if 0xF0 + c / 262144 < 0xF5 then
        utf8CheckAux 3 ((0x80 + c / 4096 % 64) :: (0x80 + c / 64 % 64) ::
          (0x80 + c % 64) :: rest)
      else false) = utf8CheckAux 0 rest
    rw [if_neg (by omega), if_neg (by omega), if_neg (by omega), if_neg (by omega),
      if_pos (by omega)]
    rw [utf8CheckAux_cont 2 _ _ (by omega) (by omega)]
    rw [utf8CheckAux_cont 1 _ _ (by omega) (by omega)]
    rw [utf8CheckAux_cont 0 _ rest (by omega) (by omega)]

/-- Soundness of the structural checker: every honest encoding passes. -/
theorem utf8Check_encode (cs : List Nat) : GoodStr cs → utf8Check (utf8Encode cs) = true := by
  induction cs with
  | nil => intro _; rfl
  | cons c t ih =>
    intro hg
    have hcb : c < 0x110000 := by
      rcases hg c (by simp) with h1 | h1
      · omega
      · omega
    have ht := ih (fun x hx => hg x (by simp [hx]))
    show utf8CheckAux 0 (encodeChar c ++ utf8Encode t) = true
    rw [utf8CheckAux_encodeChar c hcb]
    exact ht

/- ### The MicroStr buffer (src/lib.rs:74-78) -/

/-- The struct `MicroStr<CAP>`: a `CAP`-byte backing array and the live length. -/
structure MicroStr (CAP : Nat) where
  buffer : List Nat
  len : Nat
  deriving DecidableEq

/-- Model of `ptr::copy_nonoverlapping(data, buf + off, data.len())`:
overwrite `data.length` bytes of `buf` starting at offset `off`. -/
def writeBytes (buf : List Nat) (off : Nat) (data : List Nat) : List Nat :=
  buf.take off ++ data ++ buf.drop (off + data.length)

/-- Model of `MicroStr::new` (src/lib.rs:96-101): zero-filled buffer, length 0. -/
def MicroStr.new (CAP : Nat) : MicroStr CAP := ⟨List.replicate CAP 0, 0⟩

/-- Model of `extra_capacity` (src/lib.rs:341-343). -/
def MicroStr.extra_capacity {CAP : Nat} (m : MicroStr CAP) : Nat := CAP - m.len

/-- Model of `as_str` / `as_bytes` (src/lib.rs:515-518, 552-554): the live byte
range `buffer[..len]`. -/
def MicroStr.as_str {CAP : Nat} (m : MicroStr CAP) : List Nat := m.buffer.take m.len

/-- Model of `push_unchecked` (src/lib.rs:409-416): copy the UTF-8 bytes of `ch`
at offset `len` and advance `len` by `ch.len_utf8()`. -/
def MicroStr.push_unchecked {CAP : Nat} (m : MicroStr CAP) (ch : Nat) : MicroStr CAP :=
  ⟨writeBytes m.buffer m.len (encodeChar ch), m.len + utf8Len ch⟩

/-- Model of `push` (src/lib.rs:437-444).  `true` models `Ok(())`, `false` models
`Err(())`. -/
def MicroStr.push {CAP : Nat} (m : MicroStr CAP) (ch : Nat) : MicroStr CAP × Bool :=
  if utf8Len ch + m.len ≤ CAP then (m.push_unchecked ch, true) else (m, false)

/-- Model of `push_str_unchecked` (src/lib.rs:461-464). -/
def MicroStr.push_str_unchecked {CAP : Nat} (m : MicroStr CAP) (s : List Nat) :
    MicroStr CAP :=
  ⟨writeBytes m.buffer m.len s, m.len + s.length⟩

/-- Model of `push_str` (src/lib.rs:488-500): boundary-truncate `s` to the
remaining capacity, append the result, return `none` (`Ok(())`) if all of
`s` fit and `some n` (`Err(n)`) otherwise. -/
def MicroStr.push_str {CAP : Nat} (m : MicroStr CAP) (s : List Nat) :
    MicroStr CAP × Option Nat :=
  let truncated := strTruncate s m.extra_capacity
  let m' := m.push_str_unchecked truncated
  if truncated.length = s.length then (m', none) else (m', some truncated.length)

/-- Model of `from_str` (src/lib.rs:130-136): `push_str` on a fresh buffer.
`(m, none)` models `Ok(m)`; `(m, some n)` models `Err((m, n))`. -/
def MicroStr.from_str (CAP : Nat) (s : List Nat) : MicroStr CAP × Option Nat :=
  (MicroStr.new CAP).push_str s

/-- The backward while-loop of `from_const` (src/lib.rs:171-177): while
`len > 0 && len < s.len() && len < CAP && cont(buffer[len-1])`, decrement
`len`. -/
def fcLoop (buffer s_bytes : List Nat) (CAP : Nat) : Nat → Nat
  | 0 => 0
  | len + 1 =>
    if len + 1 < s_bytes.length ∧ len + 1 < CAP ∧
        is_utf8_continuation (buffer.getD len 0) = true
    then fcLoop buffer s_bytes CAP len
    else len + 1

/-- The lead-byte fix-up of `from_const` (src/lib.rs:179-211): the match
on `buffer[len-1]` guarded by `len > 0 && len < CAP && len < s.len()`. -/
def fcAdjust (buffer s_bytes : List Nat) (CAP len : Nat) : Nat :=
  if 0 < len ∧ len < CAP ∧ len < s_bytes.length then
    let last_byte := buffer.getD (len - 1) 0
    if 0xC0 ≤ last_byte ∧ last_byte ≤ 0xDF then
      if len = CAP ∨ len = s_bytes.length then len
      else if is_utf8_continuation (s_bytes.getD len 0) = false then len - 1
      else len
    else if 0xE0 ≤ last_byte ∧ last_byte ≤ 0xEF then
      if len + 1 ≥ CAP ∨ len + 1 ≥ s_bytes.length then len - 1
      else if is_utf8_continuation (s_bytes.getD len 0) = false ∨
          is_utf8_continuation (s_bytes.getD (len + 1) 0) = false then len - 1
      else len
    else if 0xF0 ≤ last_byte ∧ last_byte ≤ 0xF7 then
      if len + 2 ≥ CAP ∨ len + 2 ≥ s_bytes.length then len - 1
      else if is_utf8_continuation (s_bytes.getD len 0) = false ∨
          is_utf8_continuation (s_bytes.getD (len + 1) 0) = false ∨
          is_utf8_continuation (s_bytes.getD (len + 2) 0) = false then len - 1
      else len
    else len
  else len

/-- Model of `from_const` (src/lib.rs:159-214): copy `min(s.len(), CAP)` bytes,
then run the backward loop and the lead-byte fix-up on `len`. -/
def MicroStr.from_const (CAP : Nat) (s : List Nat) : MicroStr CAP :=
  let n := min s.length CAP
  let buffer := writeBytes (List.replicate CAP 0) 0 (s.take n)
  let len1 := fcLoop buffer s CAP n
  let len2 := fcAdjust buffer s CAP len1
  ⟨buffer, len2⟩

/-- The null-scan of `from_raw_buffer` (src/lib.rs:234-243): count the
bytes before the first 0. -/
def firstZeroLen : List Nat → Nat
  | [] => 0
  | b :: rest => if b = 0 then 0 else firstZeroLen rest + 1

/-- Model of `from_raw_buffer` (src/lib.rs:234-243): keep the buffer, set `len` to
the offset of the first 0 byte (or the whole buffer when there is none). -/
def MicroStr.from_raw_buffer (CAP : Nat) (buf : List Nat) : MicroStr CAP :=
  ⟨buf, firstZeroLen buf⟩

/-- Model of `clear` (src/lib.rs:604-607): set `len = 0` and write 0 at offset 0
when the buffer is nonempty (`buffer.get_mut(0)`). -/
def MicroStr.clear {CAP : Nat} (m : MicroStr CAP) : MicroStr CAP :=
  ⟨m.buffer.set 0 0, 0⟩

/-- Iteration of `str::chars` over content bytes, one byte at a time: the
first argument is the number of continuation bytes still owed by the
current character; a character is counted at each lead byte. -/
def countCharsAux : Nat → List Nat → Nat
  | _, [] => 0
  | 0, b :: rest => countCharsAux (leadLen b - 1) rest + 1
  | n + 1, _ :: rest => countCharsAux n rest

/-- Model of `self.chars().count()`, i.e. `MicroStr::len` (src/lib.rs:388-390),
over a byte list. -/
def countChars (l : List Nat) : Nat := countCharsAux 0 l

/-- Model of `MicroStr::len` (src/lib.rs:388-390): the decoded character count of
the content. -/
def MicroStr.charCount {CAP : Nat} (m : MicroStr CAP) : Nat := countChars m.as_str

/-- The byte-offset loop of `truncate` (src/lib.rs:624-630), walking the
decoded characters and adding `ch.len_utf8()` until `n` characters have
been passed: one byte is counted per byte walked (lead byte plus the owed
continuation bytes). -/
def byteIdxAux : Nat → List Nat → Nat → Nat
  | _, [], _ => 0
  | skip + 1, _ :: rest, n => byteIdxAux skip rest n + 1
  | 0, _ :: _, 0 => 0
  | 0, b :: rest, n + 1 => byteIdxAux (leadLen b - 1) rest n + 1

/-- Byte offset of the `n`-th decoded character of `l` (its length if it
has fewer than `n` characters). -/
def byteIdxOfChar (l : List Nat) (n : Nat) : Nat := byteIdxAux 0 l n

/-- The index written by `truncate` (src/lib.rs:638): the byte offset
`byte_idx` of character `char_idx` of the content. -/
def MicroStr.truncWriteIdx {CAP : Nat} (m : MicroStr CAP) (char_idx : Nat) : Nat :=
  byteIdxOfChar m.as_str char_idx

/-- Model of `truncate` (src/lib.rs:622-640): return unchanged when
`char_idx > self.len()`; otherwise perform the raw pointer write
`self.as_mut_ptr().add(byte_idx).write(0)` and set `len = byte_idx`.
The Rust write has no bounds check: when `byte_idx` is not below `CAP`
(full buffer and `char_idx` equal to the character count) it writes past
the `[u8; CAP]` array — undefined behaviour, modelled as `none`. -/
def MicroStr.truncate {CAP : Nat} (m : MicroStr CAP) (char_idx : Nat) :
    Option (MicroStr CAP) :=
  if char_idx > m.charCount then some m
  else if m.truncWriteIdx char_idx < CAP then
    some ⟨m.buffer.set (m.truncWriteIdx char_idx) 0, m.truncWriteIdx char_idx⟩
  else none

/-- Model of `PartialEq::eq` for `MicroStr<A>` vs `MicroStr<B>` (src/lib.rs:663-665):
`self.as_str() == other.as_str()`. -/
def MicroStr.beq {A B : Nat} (a : MicroStr A) (b : MicroStr B) : Bool :=
  a.as_str == b.as_str

/-- Model of `PartialEq::ne` (src/lib.rs:668-670): `self.as_str() != other.as_str()`. -/
def MicroStr.bne {A B : Nat} (a : MicroStr A) (b : MicroStr B) : Bool :=
  !(a.as_str == b.as_str)

/-- Spec invariants I1 and I2 for a buffer state: the backing array has
exactly `CAP` bytes, the live range fits, and the content is valid UTF-8. -/
def MicroStr.WF {CAP : Nat} (m : MicroStr CAP) : Prop :=
  m.buffer.length = CAP ∧ m.len ≤ CAP ∧ ValidUtf8 m.as_str

/- ### Helper lemmas about the byte-copy and the chars iteration -/

theorem writeBytes_length (buf : List Nat) (off : Nat) (data : List Nat)
    (h : off + data.length ≤ buf.length) :
    (writeBytes buf off data).length = buf.length := by
  simp only [writeBytes, List.length_append, List.length_take, List.length_drop]
  omega

theorem writeBytes_take (buf : List Nat) (off : Nat) (data : List Nat)
    (hoff : off ≤ buf.length) :
    (writeBytes buf off data).take (off + data.length) = buf.take off ++ data := by
  unfold writeBytes
  rw [List.append_assoc]
  have hlt : (buf.take off).length = off := by
    simp only [List.length_take]
    omega
  calc (buf.take off ++ (data ++ buf.drop (off + data.length))).take (off + data.length)
      = (buf.take off ++ (data ++ buf.drop (off + data.length))).take
          ((buf.take off).length + data.length) := by rw [hlt]
    _ = buf.take off ++ (data ++ buf.drop (off + data.length)).take data.length := by
        rw [List.take_append]
    _ = buf.take off ++ data := by rw [List.take_left]

theorem writeBytes_take_front (buf : List Nat) (off : Nat) (data : List Nat)
    (hoff : off ≤ buf.length) :
    (writeBytes buf off data).take off = buf.take off := by
  unfold writeBytes
  rw [List.append_assoc]
  exact List.take_left' (by simp only [List.length_take]; omega)

theorem writeBytes_drop_rest (buf : List Nat) (off : Nat) (data : List Nat)
    (hoff : off ≤ buf.length) :
    (writeBytes buf off data).drop (off + data.length)
      = buf.drop (off + data.length) := by
  unfold writeBytes
  exact List.drop_left' (by simp only [List.length_append, List.length_take]; omega)

theorem take_set_of_le (l : List Nat) (i j a : Nat) (h : j ≤ i) :
    (l.set i a).take j = l.take j := by
  induction l generalizing i j with
  | nil => simp
  | cons b t ih =>
    cases i with
    | zero =>
      have hj : j = 0 := by omega
      simp [hj]
    | succ i' =>
      cases j with
      | zero => simp
      | succ j' => simp [List.set, ih i' j' (by omega)]

theorem countCharsAux_skip (pre rest : List Nat) :
    countCharsAux pre.length (pre ++ rest) = countCharsAux 0 rest := by
  induction pre with
  | nil => rfl
  | cons b t ih =>
    show countCharsAux (t.length + 1) (b :: (t ++ rest)) = countCharsAux 0 rest
    rw [countCharsAux, ih]

theorem countCharsAux_encodeChar (c : Nat) (hc : c < 0x110000) (rest : List Nat) :
    countCharsAux 0 (encodeChar c ++ rest) = countCharsAux 0 rest + 1 := by
  obtain ⟨b, tail, hbt⟩ := List.exists_cons_of_ne_nil (encodeChar_ne_nil c)
  have hlead : leadLen b = utf8Len c := by
    have := encodeChar_head_leadLen c hc
    rw [hbt] at this
    simpa using this
  have htail : tail.length = utf8Len c - 1 := by
    have := encodeChar_length c
    rw [hbt] at this
    simp at this
    omega
  rw [hbt]
  show countCharsAux 0 (b :: (tail ++ rest)) = countCharsAux 0 rest + 1
  rw [countCharsAux, hlead, ← htail, countCharsAux_skip]

/-- On valid content, `chars().count()` is the number of scalar values. -/
theorem countChars_encode (cs : List Nat) : GoodStr cs →
    countChars (utf8Encode cs) = cs.length := by
  induction cs with
  | nil => intro _; rfl
  | cons c t ih =>
    intro hg
    have hc : c < 0x110000 := by
      rcases hg c (by simp) with h1 | h1
      · omega
      · omega
    show countCharsAux 0 (encodeChar c ++ utf8Encode t) = t.length + 1
    rw [countCharsAux_encodeChar c hc]
    have := ih (fun x hx => hg x (by simp [hx]))
    unfold countChars at this
    rw [this]

theorem byteIdxAux_skip (pre rest : List Nat) (n : Nat) :
    byteIdxAux pre.length (pre ++ rest) n = pre.length + byteIdxAux 0 rest n := by
  induction pre with
  | nil => simp
  | cons b t ih =>
    show byteIdxAux (t.length + 1) (b :: (t ++ rest)) n = t.length + 1 + byteIdxAux 0 rest n
    rw [byteIdxAux, ih]
    omega

theorem byteIdxAux_encodeChar (c : Nat) (hc : c < 0x110000) (rest : List Nat) (n : Nat) :
    byteIdxAux 0 (encodeChar c ++ rest) (n + 1)
      = utf8Len c + byteIdxAux 0 rest n := by
  obtain ⟨b, tail, hbt⟩ := List.exists_cons_of_ne_nil (encodeChar_ne_nil c)
  have hlead : leadLen b = utf8Len c := by
    have := encodeChar_head_leadLen c hc
    rw [hbt] at this
    simpa using this
  have htail : tail.length = utf8Len c - 1 := by
    have := encodeChar_length c
    rw [hbt] at this
    simp at this
    omega
  have hpos := utf8Len_pos c
  rw [hbt]
  show byteIdxAux 0 (b :: (tail ++ rest)) (n + 1) = utf8Len c + byteIdxAux 0 rest n
  rw [byteIdxAux, hlead, ← htail, byteIdxAux_skip]
  omega

/-- On valid content, the byte offset of character `n` is the encoded
length of the first `n` scalar values. -/
theorem byteIdx_encode (cs : List Nat) (n : Nat) : GoodStr cs →
    byteIdxOfChar (utf8Encode cs) n = (utf8Encode (cs.take n)).length := by
  induction cs generalizing n with
  | nil =>
    intro _
    show byteIdxAux 0 (utf8Encode []) n = (utf8Encode ([].take n)).length
    rw [List.take_nil]
    cases n <;> rfl
  | cons c t ih =>
    intro hg
    have hc : c < 0x110000 := by
      rcases hg c (by simp) with h1 | h1
      · omega
      · omega
    cases n with
    | zero =>
      show byteIdxAux 0 (encodeChar c ++ utf8Encode t) 0 = (utf8Encode []).length
      obtain ⟨b, tail, hbt⟩ := List.exists_cons_of_ne_nil (encodeChar_ne_nil c)
      rw [hbt]
      rfl
    | succ n' =>
      show byteIdxAux 0 (encodeChar c ++ utf8Encode t) (n' + 1)
        = (utf8Encode (c :: t.take n')).length
      rw [byteIdxAux_encodeChar c hc]
      have := ih n' (fun x hx => hg x (by simp [hx]))
      unfold byteIdxOfChar at this
      rw [this]
      show _ = (encodeChar c ++ utf8Encode (t.take n')).length
      rw [List.length_append, encodeChar_length]

theorem takeFit_front (cs : List Nat) (a : Nat) : ∃ u, takeFit cs a ++ u = cs := by
  induction cs generalizing a with
  | nil => exact ⟨[], rfl⟩
  | cons c t ih =>
    unfold takeFit
    split
    · obtain ⟨u, hu⟩ := ih (a - utf8Len c)
      exact ⟨u, by rw [List.cons_append, hu]⟩
    · exact ⟨c :: t, rfl⟩

theorem strTruncate_zero_length (s : List Nat) : (strTruncate s 0).length = 0 := by
  unfold strTruncate
  split
  · next h =>
    have : s.length = 0 := by omega
    omega
  · rw [if_pos rfl]
    rfl

/-- Both branches of `push_str` return the same mutated buffer. -/
theorem push_str_fst {CAP : Nat} (m : MicroStr CAP) (s : List Nat) :
    (m.push_str s).1 = m.push_str_unchecked (strTruncate s (CAP - m.len)) := by
  unfold MicroStr.push_str MicroStr.extra_capacity
  simp only []
  split <;> rfl

/-- Content of the buffer after an in-bounds append. -/
theorem push_str_unchecked_as_str {CAP : Nat} (m : MicroStr CAP) (d : List Nat)
    (hbuf : m.buffer.length = CAP) (hlen : m.len ≤ CAP) :
    (m.push_str_unchecked d).as_str = m.as_str ++ d := by
  unfold MicroStr.push_str_unchecked MicroStr.as_str
  exact writeBytes_take m.buffer m.len d (by omega)

/-- Everything `push_str` does, stated over the boundary-truncated part. -/
theorem push_str_core {CAP : Nat} (m : MicroStr CAP) (s : List Nat)
    (hm : m.WF) (hs : ValidUtf8 s) :
    (m.push_str s).1.len = m.len + (strTruncate s (CAP - m.len)).length
    ∧ (m.push_str s).1.as_str = m.as_str ++ strTruncate s (CAP - m.len)
    ∧ (∃ t, strTruncate s (CAP - m.len) ++ t = s)
    ∧ (strTruncate s (CAP - m.len)).length ≤ CAP - m.len
    ∧ ValidUtf8 (strTruncate s (CAP - m.len))
    ∧ (∀ p, (∃ t, p ++ t = s) → p.length ≤ CAP - m.len → ValidUtf8 p →
        p.length ≤ (strTruncate s (CAP - m.len)).length)
    ∧ ((m.push_str s).2 = none ↔ (strTruncate s (CAP - m.len)).length = s.length)
    ∧ (∀ n, (m.push_str s).2 = some n → n = (strTruncate s (CAP - m.len)).length) := by
  obtain ⟨hbuf, hlen, _⟩ := hm
  obtain ⟨cs, hg, rfl⟩ := hs
  have hEq := strTruncate_encode cs hg (CAP - m.len)
  have hfront : ∃ t, strTruncate (utf8Encode cs) (CAP - m.len) ++ t = utf8Encode cs := by
    obtain ⟨u, hu⟩ := takeFit_front cs (CAP - m.len)
    refine ⟨utf8Encode u, ?_⟩
    rw [hEq, ← utf8Encode_append, hu]
  refine ⟨?_, ?_, hfront, ?_, ?_, ?_, ?_, ?_⟩
  · rw [push_str_fst]
    rfl
  · rw [push_str_fst]
    exact push_str_unchecked_as_str m _ hbuf hlen
  · rw [hEq]
    exact takeFit_length_le cs (CAP - m.len)
  · refine ⟨takeFit cs (CAP - m.len), ?_, hEq⟩
    intro x hx
    obtain ⟨u, hu⟩ := takeFit_front cs (CAP - m.len)
    exact hg x (by rw [← hu]; exact List.mem_append_left u hx)
  · intro p hp hplen hpval
    rw [hEq]
    exact valid_front_le cs hg (CAP - m.len) p hp hplen hpval
  · constructor
    · intro h
      unfold MicroStr.push_str MicroStr.extra_capacity at h
      by_cases hc : (strTruncate (utf8Encode cs) (CAP - m.len)).length = (utf8Encode cs).length
      · exact hc
      · rw [if_neg hc] at h
        simp at h
    · intro h
      unfold MicroStr.push_str MicroStr.extra_capacity
      rw [if_pos h]
  · intro n h
    unfold MicroStr.push_str MicroStr.extra_capacity at h
    by_cases hc : (strTruncate (utf8Encode cs) (CAP - m.len)).length = (utf8Encode cs).length
    · rw [if_pos hc] at h
      simp at h
    · rw [if_neg hc] at h
      simp at h
      omega

theorem encode_take (cs : List Nat) (n : Nat) :
    (utf8Encode cs).take ((utf8Encode (cs.take n)).length) = utf8Encode (cs.take n) := by
  have h : utf8Encode cs = utf8Encode (cs.take n) ++ utf8Encode (cs.drop n) := by
    rw [← utf8Encode_append, List.take_append_drop]
  rw [h, List.take_left]

theorem as_str_length {CAP : Nat} (m : MicroStr CAP) (hbuf : m.buffer.length = CAP)
    (hlen : m.len ≤ CAP) : m.as_str.length = m.len := by
  unfold MicroStr.as_str
  simp only [List.length_take]
  omega

theorem push_WF {CAP : Nat} (m : MicroStr CAP) (ch : Nat) (hm : m.WF)
    (hch : GoodChar ch) : (m.push ch).1.WF := by
  obtain ⟨hbuf, hlen, cs, hg, hcon⟩ := hm
  unfold MicroStr.push
  split
  · next hfits =>
    have hel : (encodeChar ch).length = utf8Len ch := encodeChar_length ch
    refine ⟨?_, ?_, ?_⟩
    · show (writeBytes m.buffer m.len (encodeChar ch)).length = CAP
      rw [writeBytes_length m.buffer m.len (encodeChar ch) (by omega)]
      exact hbuf
    · show m.len + utf8Len ch ≤ CAP
      omega
    · show ValidUtf8 ((writeBytes m.buffer m.len (encodeChar ch)).take (m.len + utf8Len ch))
      rw [← hel, writeBytes_take m.buffer m.len (encodeChar ch) (by omega)]
      refine ⟨cs ++ [ch], ?_, ?_⟩
      · intro x hx
        rcases List.mem_append.mp hx with h | h
        · exact hg x h
        · simp at h
          subst h
          exact hch
      · show m.as_str ++ encodeChar ch = _
        rw [hcon, utf8Encode_append]
        simp [utf8Encode]
  · exact ⟨hbuf, hlen, cs, hg, hcon⟩

theorem push_str_WF {CAP : Nat} (m : MicroStr CAP) (s : List Nat) (hm : m.WF)
    (hs : ValidUtf8 s) : (m.push_str s).1.WF := by
  obtain ⟨hbuf, hlen, cs, hg, hcon⟩ := hm
  obtain ⟨ds, hdg, rfl⟩ := hs
  have hEq := strTruncate_encode ds hdg (CAP - m.len)
  have htl : (strTruncate (utf8Encode ds) (CAP - m.len)).length ≤ CAP - m.len := by
    rw [hEq]
    exact takeFit_length_le ds (CAP - m.len)
  rw [push_str_fst]
  refine ⟨?_, ?_, ?_⟩
  · show (writeBytes m.buffer m.len (strTruncate (utf8Encode ds) (CAP - m.len))).length = CAP
    rw [writeBytes_length m.buffer m.len _ (by omega)]
    exact hbuf
  · show m.len + (strTruncate (utf8Encode ds) (CAP - m.len)).length ≤ CAP
    omega
  · show ValidUtf8 ((m.push_str_unchecked (strTruncate (utf8Encode ds) (CAP - m.len))).as_str)
    rw [push_str_unchecked_as_str m _ hbuf hlen]
    refine ⟨cs ++ takeFit ds (CAP - m.len), ?_, ?_⟩
    · intro x hx
      rcases List.mem_append.mp hx with h | h
      · exact hg x h
      · obtain ⟨u, hu⟩ := takeFit_front ds (CAP - m.len)
        exact hdg x (by rw [← hu]; exact List.mem_append_left u h)
    · rw [hcon, hEq, utf8Encode_append]

theorem truncate_WF {CAP : Nat} (m : MicroStr CAP) (n : Nat) (m' : MicroStr CAP)
    (hm : m.WF) (h : m.truncate n = some m') : m'.WF := by
  obtain ⟨hbuf, hlen, cs, hg, hcon⟩ := hm
  unfold MicroStr.truncate at h
  split at h
  · cases h
    exact ⟨hbuf, hlen, cs, hg, hcon⟩
  · have hbidx : m.truncWriteIdx n = (utf8Encode (cs.take n)).length := by
      unfold MicroStr.truncWriteIdx
      rw [hcon]
      exact byteIdx_encode cs n hg
    have hble : (utf8Encode (cs.take n)).length ≤ (utf8Encode cs).length := by
      conv_rhs => rw [← List.take_append_drop n cs]
      rw [utf8Encode_append, List.length_append]
      omega
    have hml : (utf8Encode cs).length = m.len := by
      rw [← hcon]
      exact as_str_length m hbuf hlen
    split at h
    case isFalse => cases h
    cases h
    refine ⟨?_, ?_, ?_⟩
    · show (m.buffer.set (m.truncWriteIdx n) 0).length = CAP
      rw [List.length_set]
      exact hbuf
    · show m.truncWriteIdx n ≤ CAP
      omega
    · show ValidUtf8 ((m.buffer.set (m.truncWriteIdx n) 0).take (m.truncWriteIdx n))
      rw [take_set_of_le m.buffer _ _ 0 (le_refl _)]
      refine ⟨cs.take n, fun x hx => hg x (List.mem_of_mem_take hx), ?_⟩
      have hstep : m.buffer.take (m.truncWriteIdx n)
          = (m.buffer.take m.len).take (m.truncWriteIdx n) := by
        rw [List.take_take]
        have : min (m.truncWriteIdx n) m.len = m.truncWriteIdx n := by omega
        rw [this]
      rw [hstep]
      show (m.as_str).take (m.truncWriteIdx n) = _
      rw [hcon, hbidx]
      exact encode_take cs n

theorem clear_WF {CAP : Nat} (m : MicroStr CAP) (hm : m.WF) : m.clear.WF := by
  obtain ⟨hbuf, hlen, _⟩ := hm
  refine ⟨?_, ?_, ?_⟩
  · show (m.buffer.set 0 0).length = CAP
    rw [List.length_set]
    exact hbuf
  · show 0 ≤ CAP
    omega
  · show ValidUtf8 ((m.buffer.set 0 0).take 0)
    exact ⟨[], by intro x hx; simp at hx, rfl⟩

/- ### Sequences of safe-API mutations (for the invariant-preservation
claim) -/

/-- A safe-API mutation. -/
inductive Op where
  | pushChar (ch : Nat)
  | pushStr (s : List Nat)
  | trunc (n : Nat)
  | clear

/-- What the Rust signature of each operation guarantees about its
argument: `push` takes a `char` (a scalar value), `push_str` a `&str`
(valid UTF-8). -/
def OpOK : Op → Prop
  | .pushChar ch => GoodChar ch
  | .pushStr s => ValidUtf8 s
  | .trunc _ => True
  | .clear => True

/-- Apply one mutation in place, discarding the reported result; `none`
when the operation runs into the out-of-bounds write of `truncate`
(undefined behaviour in the Rust code). -/
def applyOp {CAP : Nat} (m : MicroStr CAP) : Op → Option (MicroStr CAP)
  | .pushChar ch => some (m.push ch).1
  | .pushStr s => some (m.push_str s).1
  | .trunc n => m.truncate n
  | .clear => some m.clear

/-- Apply a sequence of mutations from left to right; `none` as soon as
one operation hits undefined behaviour. -/
def applyOps {CAP : Nat} (m : MicroStr CAP) : List Op → Option (MicroStr CAP)
  | [] => some m
  | op :: ops =>
    match applyOp m op with
    | some m' => applyOps m' ops
    | none => none

theorem applyOp_WF {CAP : Nat} (m : MicroStr CAP) (op : Op) (m' : MicroStr CAP)
    (hm : m.WF) (hop : OpOK op) (h : applyOp m op = some m') : m'.WF := by
  cases op with
  | pushChar ch =>
    cases h
    exact push_WF m ch hm hop
  | pushStr s =>
    cases h
    exact push_str_WF m s hm hop
  | trunc n => exact truncate_WF m n m' hm h
  | clear =>
    cases h
    exact clear_WF m hm

/-- On the defined (UB-free) fragment, every sequence of safe mutations
preserves the invariants. -/
theorem applyOps_WF {CAP : Nat} (ops : List Op) (m m' : MicroStr CAP) (hm : m.WF)
    (hops : ∀ op ∈ ops, OpOK op) (h : applyOps m ops = some m') : m'.WF := by
  induction ops generalizing m with
  | nil =>
    cases h
    exact hm
  | cons op rest ih =>
    unfold applyOps at h
    cases hstep : applyOp m op with
    | none => rw [hstep] at h; cases h
    | some mm =>
      rw [hstep] at h
      exact ih mm (applyOp_WF m op mm hm (hops op (by simp)) hstep)
        (fun o ho => hops o (by simp [ho])) h

/- ### General facts about `from_const` and `from_raw_buffer` -/

/-- The guard of the backward loop of `from_const` can never hold at entry:
it requires `len < s.len()` and `len < CAP` with `len = min(s.len(), CAP)`. -/
theorem fcLoop_at_min (buffer s : List Nat) (CAP : Nat) :
    fcLoop buffer s CAP (min s.length CAP) = min s.length CAP := by
  cases h : min s.length CAP with
  | zero => rfl
  | succ l =>
    show fcLoop buffer s CAP (l + 1) = l + 1
    unfold fcLoop
    rw [if_neg (by rintro ⟨h1, h2, -⟩; omega)]

/-- The guard of the lead-byte fix-up of `from_const` can never hold
either, for the same reason. -/
theorem fcAdjust_at_min (buffer s : List Nat) (CAP : Nat) :
    fcAdjust buffer s CAP (min s.length CAP) = min s.length CAP := by
  unfold fcAdjust
  rw [if_neg (by rintro ⟨h1, h2, h3⟩; omega)]

/-- Consequence: `from_const` is a raw `min(s.len(), CAP)`-byte copy with
no boundary correction at all — lines 171-211 of src/lib.rs are dead code. -/
theorem from_const_is_raw_copy (CAP : Nat) (s : List Nat) :
    MicroStr.from_const CAP s
      = ⟨writeBytes (List.replicate CAP 0) 0 (s.take (min s.length CAP)),
          min s.length CAP⟩ := by
  unfold MicroStr.from_const
  simp only []
  rw [fcLoop_at_min, fcAdjust_at_min]

theorem firstZeroLen_of_all_nonzero (buf : List Nat) (h : ∀ b ∈ buf, b ≠ 0) :
    firstZeroLen buf = buf.length := by
  induction buf with
  | nil => rfl
  | cons b t ih =>
    unfold firstZeroLen
    rw [if_neg (h b (by simp))]
    rw [ih (fun x hx => h x (by simp [hx]))]
    rfl

theorem firstZeroLen_of_first_zero (buf : List Nat) (i : Nat) (hz : buf.getD i 0 = 0)
    (hnz : ∀ j, j < i → buf.getD j 0 ≠ 0) (hi : i < buf.length) :
    firstZeroLen buf = i := by
  induction buf generalizing i with
  | nil => simp at hi
  | cons b t ih =>
    cases i with
    | zero =>
      simp only [List.getD_cons_zero] at hz
      unfold firstZeroLen
      rw [if_pos hz]
    | succ i' =>
      have hb : b ≠ 0 := by
        have := hnz 0 (by omega)
        simpa using this
      unfold firstZeroLen
      rw [if_neg hb]
      have hz' : t.getD i' 0 = 0 := by simpa using hz
      have hnz' : ∀ j, j < i' → t.getD j 0 ≠ 0 := by
        intro j hj
        have := hnz (j + 1) (by omega)
        simpa using this
      rw [ih i' hz' hnz' (by simpa using hi)]

/-- A fresh buffer satisfies the invariants. -/
theorem new_WF (CAP : Nat) : (MicroStr.new CAP).WF := by
  refine ⟨by simp [MicroStr.new], by simp [MicroStr.new], ⟨[], ?_, ?_⟩⟩
  · intro x hx
    simp at hx
  · simp [MicroStr.new, MicroStr.as_str, utf8Encode]

/- ### Claim theorems -/

/-- C1: the claim states that `from_const(s)` always agrees with
`from_str(s)` and never leaves invalid UTF-8.  The code violates this:
at capacity 2 on the string "a💖" (bytes 61 F0 9F 92 96), `from_const`
keeps 2 bytes — ending in the lone lead byte F0 of a four-byte character,
which fails the UTF-8 validity check — while `from_str` keeps only "a"
(1 byte).  The boundary-correction loops of `from_const` are dead code
(see `from_const_is_raw_copy`), contradicting the function's own
documentation and comments. -/
theorem C1_from_const_splits_character :
    MicroStr.from_const 2 [0x61, 0xF0, 0x9F, 0x92, 0x96]
        = ⟨[0x61, 0xF0], 2⟩
    ∧ utf8Check [0x61, 0xF0] = false
    ∧ ¬ ValidUtf8 [0x61, 0xF0]
    ∧ MicroStr.from_str 2 [0x61, 0xF0, 0x9F, 0x92, 0x96]
        = (⟨[0x61, 0x00], 1⟩, some 1) := by
  refine ⟨by decide, by decide, ?_, by decide⟩
  rintro ⟨cs, hg, hEq⟩
  have h := utf8Check_encode cs hg
  rw [← hEq] at h
  have h2 : utf8Check [0x61, 0xF0] = false := by decide
  rw [h] at h2
  cases h2

/-- C2: the claim states `truncate(n)` is a complete no-op whenever
`n ≥` the character count.  The code violates it at `n =` count: the
guard at src/lib.rs:623 tests `char_idx > self.len()`, so `truncate`
proceeds, and writes a 0 at byte offset `byte_len`, mutating the backing
storage.  The state below (buffer `[97,120,99]`, length 2, capacity 3)
satisfies the invariants and is reachable by safe calls
(`push_str "abc"`, `truncate 1`, `push 'x'`); `truncate 2` with character
count 2 changes the storage from `[97,120,99]` to `[97,120,0]`. -/
theorem C2_truncate_at_count_mutates_storage :
    (⟨[97, 120, 99], 2⟩ : MicroStr 3).WF
    ∧ (⟨[97, 120, 99], 2⟩ : MicroStr 3).charCount = 2
    ∧ MicroStr.truncate (⟨[97, 120, 99], 2⟩ : MicroStr 3) 2 = some ⟨[97, 120, 0], 2⟩
    ∧ (⟨[97, 120, 0], 2⟩ : MicroStr 3) ≠ ⟨[97, 120, 99], 2⟩ := by
  refine ⟨⟨by decide, by decide, ⟨[97, 120], by decide, by decide⟩⟩,
    by decide, by decide, by decide⟩

/-- C3: the claim states that every byte write of the safe API targets an
index `< CAP`.  The code violates it: on a full buffer (capacity 1 holding
"a"), `truncate(1)` passes the guard (`1 > self.len()` is false since the
character count is 1) and performs the raw write
`self.as_mut_ptr().add(byte_idx).write(0)` with `byte_idx = 1 = CAP` —
out of bounds, contradicting the SAFETY comment at src/lib.rs:631-637. -/
theorem C3_truncate_write_index_reaches_CAP :
    (⟨[97], 1⟩ : MicroStr 1).WF
    ∧ ¬ (1 > (⟨[97], 1⟩ : MicroStr 1).charCount)
    ∧ (⟨[97], 1⟩ : MicroStr 1).truncWriteIdx 1 = 1
    ∧ ¬ ((⟨[97], 1⟩ : MicroStr 1).truncWriteIdx 1 < 1) := by
  refine ⟨⟨by decide, by decide, ⟨[97], by decide, by decide⟩⟩,
    by decide, by decide, by decide⟩

/-- C4: for every invariant-satisfying buffer with `a = CAP - len` free
bytes and every valid UTF-8 input `s`, `push_str(s)` appends exactly the
longest prefix of `s` that is valid UTF-8 and no longer than `a` bytes,
advances `len` by that many bytes, and returns `Ok(())` exactly when all
of `s` was appended, otherwise `Err(n)` with `n` the byte count actually
appended (`n = 0` when `a = 0`).  The append is byte-exact on the whole
backing storage: the array keeps its length, and every byte outside the
written range `[len, len + n)` — both the live bytes before `len` and the
spare bytes past the appended part — is untouched. -/
theorem C4_push_str_appends_longest_valid_front (CAP : Nat) (m : MicroStr CAP)
    (s : List Nat) (hm : m.WF) (hs : ValidUtf8 s) :
    (m.push_str s).1.len = m.len + (strTruncate s (CAP - m.len)).length
    ∧ (m.push_str s).1.as_str = m.as_str ++ strTruncate s (CAP - m.len)
    ∧ (m.push_str s).1.buffer.length = m.buffer.length
    ∧ (m.push_str s).1.buffer.take m.len = m.buffer.take m.len
    ∧ (m.push_str s).1.buffer.drop (m.len + (strTruncate s (CAP - m.len)).length)
        = m.buffer.drop (m.len + (strTruncate s (CAP - m.len)).length)
    ∧ (∃ t, strTruncate s (CAP - m.len) ++ t = s)
    ∧ (strTruncate s (CAP - m.len)).length ≤ CAP - m.len
    ∧ ValidUtf8 (strTruncate s (CAP - m.len))
    ∧ (∀ p, (∃ t, p ++ t = s) → p.length ≤ CAP - m.len → ValidUtf8 p →
        p.length ≤ (strTruncate s (CAP - m.len)).length)
    ∧ ((m.push_str s).2 = none ↔ (strTruncate s (CAP - m.len)).length = s.length)
    ∧ (∀ n, (m.push_str s).2 = some n → n = (strTruncate s (CAP - m.len)).length)
    ∧ (CAP - m.len = 0 → (strTruncate s (CAP - m.len)).length = 0) := by
  obtain ⟨h1, h2, h3, h4, h5, h6, h7, h8⟩ := push_str_core m s hm hs
  have hbuf : m.buffer.length = CAP := hm.1
  have hlen : m.len ≤ CAP := hm.2.1
  have hb : (m.push_str s).1.buffer
      = writeBytes m.buffer m.len (strTruncate s (CAP - m.len)) := by
    rw [push_str_fst]
    rfl
  refine ⟨h1, h2, ?_, ?_, ?_, h3, h4, h5, h6, h7, h8, ?_⟩
  · rw [hb]
    exact writeBytes_length m.buffer m.len _ (by omega)
  · rw [hb]
    exact writeBytes_take_front m.buffer m.len _ (by omega)
  · rw [hb]
    exact writeBytes_drop_rest m.buffer m.len _ (by omega)
  · intro h0
    rw [h0]
    exact strTruncate_zero_length s

/-- Witness for C4: capacity 6 holding "An", pushing "河🌍" (the spec's
own scenario 2): only the 3 bytes of 河 fit into the 4 free bytes. -/
theorem C4_witness :
    (⟨[65, 110, 0, 0, 0, 0], 2⟩ : MicroStr 6).WF
    ∧ ValidUtf8 [230, 178, 179, 240, 159, 140, 141]
    ∧ ((⟨[65, 110, 0, 0, 0, 0], 2⟩ : MicroStr 6).push_str
        [230, 178, 179, 240, 159, 140, 141]).1.len
      = (⟨[65, 110, 0, 0, 0, 0], 2⟩ : MicroStr 6).len
        + (strTruncate [230, 178, 179, 240, 159, 140, 141]
            (6 - (⟨[65, 110, 0, 0, 0, 0], 2⟩ : MicroStr 6).len)).length := by
  have hm : (⟨[65, 110, 0, 0, 0, 0], 2⟩ : MicroStr 6).WF :=
    ⟨by decide, by decide, ⟨[65, 110], by decide, by decide⟩⟩
  have hs : ValidUtf8 [230, 178, 179, 240, 159, 140, 141] :=
    ⟨[0x6CB3, 0x1F30D], by decide, by decide⟩
  exact ⟨hm, hs,
    (C4_push_str_appends_longest_valid_front 6 ⟨[65, 110, 0, 0, 0, 0], 2⟩
      [230, 178, 179, 240, 159, 140, 141] hm hs).1⟩

/-- C5: the claim states that every sequence of safe-API mutations
preserves the invariants.  The code violates it: on a capacity-1 buffer
the safe sequence `push('a'); truncate(1)` reaches the out-of-bounds
sentinel write of `truncate` (`byte_idx = 1 = CAP`, the C3 slip) —
undefined behaviour, after which the program guarantees nothing; the
model reports it as the error outcome `none`.  Both operations are
well-typed safe calls (`OpOK`) from the invariant-satisfying fresh
buffer.  On the UB-free fragment the invariants are indeed preserved
(see `applyOps_WF`), so the claim fails only through this bug. -/
theorem C5_safe_sequence_reaches_oob_write :
    (MicroStr.new 1).WF
    ∧ (∀ op ∈ [Op.pushChar 97, Op.trunc 1], OpOK op)
    ∧ applyOps (MicroStr.new 1) [Op.pushChar 97, Op.trunc 1] = none := by
  refine ⟨new_WF 1, ?_, by decide⟩
  intro op hop
  simp at hop
  rcases hop with rfl | rfl
  · show GoodChar 97
    decide
  · trivial

/-- C6: for every valid UTF-8 string `s` and cut offset `idx`, the
boundary-checked truncation returns a byte-prefix `s.take k` with
`k ≤ min(idx, s.length)`, ending on a character boundary (the prefix is
itself valid UTF-8), and `k` is the largest such value; `idx = 0` yields
the empty prefix and `idx ≥ s.length` yields `s` itself. -/
theorem C6_boundary_truncation_correct (s : List Nat) (idx : Nat)
    (hs : ValidUtf8 s) :
    ∃ k, strTruncate s idx = s.take k
      ∧ k ≤ idx ∧ k ≤ s.length
      ∧ ValidUtf8 (s.take k)
      ∧ (∀ j, j ≤ idx → j ≤ s.length → ValidUtf8 (s.take j) → j ≤ k)
      ∧ (idx = 0 → k = 0)
      ∧ (s.length ≤ idx → strTruncate s idx = s) := by
  obtain ⟨cs, hg, rfl⟩ := hs
  have hEq := strTruncate_encode cs hg idx
  obtain ⟨u, hu⟩ := takeFit_front cs idx
  have hsplit : utf8Encode cs = utf8Encode (takeFit cs idx) ++ utf8Encode u := by
    rw [← utf8Encode_append, hu]
  refine ⟨(utf8Encode (takeFit cs idx)).length, ?_, ?_, ?_, ?_, ?_, ?_, ?_⟩
  · rw [hEq, hsplit, List.take_left]
  · rw [← hEq]
    have := takeFit_length_le cs idx
    rw [hEq]
    exact this
  · rw [hsplit, List.length_append]
    omega
  · rw [hsplit, List.take_left]
    refine ⟨takeFit cs idx, ?_, rfl⟩
    intro x hx
    exact hg x (by rw [← hu]; exact List.mem_append_left u hx)
  · intro j hj hjlen hjval
    have hp : ∃ t, (utf8Encode cs).take j ++ t = utf8Encode cs :=
      ⟨(utf8Encode cs).drop j, List.take_append_drop j (utf8Encode cs)⟩
    have hplen : ((utf8Encode cs).take j).length ≤ idx := by
      simp only [List.length_take]
      omega
    have := valid_front_le cs hg idx ((utf8Encode cs).take j) hp hplen hjval
    simp only [List.length_take] at this
    omega
  · intro h0
    have := takeFit_length_le cs idx
    omega
  · intro hle
    unfold strTruncate
    rw [if_pos hle]

/-- Witness for C6: cutting "a💖" (bytes 61 F0 9F 92 96) at offset 3
lands inside the four-byte character. -/
theorem C6_witness :
    ValidUtf8 [97, 240, 159, 146, 150]
    ∧ ∃ k, strTruncate [97, 240, 159, 146, 150] 3 = [97, 240, 159, 146, 150].take k
        ∧ k ≤ 3 := by
  have hs : ValidUtf8 [97, 240, 159, 146, 150] :=
    ⟨[97, 0x1F496], by decide, by decide⟩
  obtain ⟨k, h1, h2, -⟩ := C6_boundary_truncation_correct [97, 240, 159, 146, 150] 3 hs
  exact ⟨hs, k, h1, h2⟩

/-- C7: `push(ch)` either appends exactly the UTF-8 encoding of `ch`
(1-4 bytes), advancing `len` by its encoded size and returning `Ok`, when
it fits; or returns `Err` leaving length, content and backing storage
entirely unchanged. -/
theorem C7_push_char_all_or_nothing (CAP : Nat) (m : MicroStr CAP) (ch : Nat)
    (hm : m.WF) :
    (utf8Len ch + m.len ≤ CAP →
      (m.push ch).2 = true
      ∧ (m.push ch).1.len = m.len + utf8Len ch
      ∧ 1 ≤ utf8Len ch ∧ utf8Len ch ≤ 4
      ∧ (m.push ch).1.as_str = m.as_str ++ encodeChar ch)
    ∧ (¬ utf8Len ch + m.len ≤ CAP → m.push ch = (m, false)) := by
  obtain ⟨hbuf, hlen, -⟩ := hm
  constructor
  · intro hfits
    unfold MicroStr.push
    rw [if_pos hfits]
    refine ⟨rfl, rfl, utf8Len_pos ch, utf8Len_le_four ch, ?_⟩
    show ((m.push_unchecked ch).buffer).take (m.len + utf8Len ch) = _
    unfold MicroStr.push_unchecked
    rw [← encodeChar_length ch]
    exact writeBytes_take m.buffer m.len (encodeChar ch) (by omega)
  · intro hno
    unfold MicroStr.push
    rw [if_neg hno]

/-- Witness for C7: pushing 'A' into an empty capacity-1 buffer succeeds. -/
theorem C7_witness :
    (MicroStr.new 1).WF ∧ ((MicroStr.new 1).push 65).2 = true := by
  refine ⟨new_WF 1, ?_⟩
  exact ((C7_push_char_all_or_nothing 1 (MicroStr.new 1) 65 (new_WF 1)).1
    (by decide)).1

/-- C8: for every string whose byte length fits the capacity, `from_str`
returns `Ok` and reading the content back yields exactly the input bytes
(hence also the same decoded characters: the third conjunct). -/
theorem C8_from_str_roundtrip (CAP : Nat) (s : List Nat) (h : s.length ≤ CAP)
    (hs : ValidUtf8 s) :
    (MicroStr.from_str CAP s).2 = none
    ∧ (MicroStr.from_str CAP s).1.as_str = s
    ∧ ∀ cs, GoodStr cs → s = utf8Encode cs →
        (MicroStr.from_str CAP s).1.as_str = utf8Encode cs := by
  have htr : strTruncate s (CAP - (MicroStr.new CAP).len) = s := by
    unfold strTruncate
    rw [if_pos ?hc]
    case hc =>
      show s.length ≤ CAP - (MicroStr.new CAP).len
      show s.length ≤ CAP - 0
      omega
  have hfst :
      (MicroStr.from_str CAP s).1 = (MicroStr.new CAP).push_str_unchecked s := by
    unfold MicroStr.from_str
    rw [push_str_fst, htr]
  have hcontent : (MicroStr.from_str CAP s).1.as_str = s := by
    rw [hfst, push_str_unchecked_as_str (MicroStr.new CAP) s (by simp [MicroStr.new])
      (by simp [MicroStr.new])]
    show (MicroStr.new CAP).as_str ++ s = s
    simp [MicroStr.new, MicroStr.as_str]
  refine ⟨?_, hcontent, ?_⟩
  · unfold MicroStr.from_str MicroStr.push_str MicroStr.extra_capacity
    simp only []
    rw [htr, if_pos rfl]
  · intro cs _ hEq
    rw [hcontent, hEq]

/-- Witness for C8: "Hi" fits in capacity 5 and round-trips. -/
theorem C8_witness :
    ([72, 105] : List Nat).length ≤ 5
    ∧ ValidUtf8 [72, 105]
    ∧ (MicroStr.from_str 5 [72, 105]).2 = none := by
  have hs : ValidUtf8 [72, 105] := ⟨[72, 105], by decide, by decide⟩
  exact ⟨by decide, hs, (C8_from_str_roundtrip 5 [72, 105] (by decide) hs).1⟩

/-- C9: equality of two buffers of (possibly different) capacities holds
exactly when the live contents `buffer[..len]` agree — independent of the
capacities and of any storage bytes past `len` — and `ne` is its exact
negation. -/
theorem C9_eq_iff_content_equal (A B : Nat) (a : MicroStr A) (b : MicroStr B) :
    (MicroStr.beq a b = true ↔ a.buffer.take a.len = b.buffer.take b.len)
    ∧ MicroStr.bne a b = !(MicroStr.beq a b) := by
  constructor
  · unfold MicroStr.beq MicroStr.as_str
    constructor
    · intro h
      exact eq_of_beq h
    · intro h
      rw [h]
      exact beq_self_eq_true _
  · rfl

/-- C10: `from_raw_buffer` sets the length to the offset of the first zero
byte, or to `CAP` when the buffer contains no zero byte at all. -/
theorem C10_from_raw_buffer_len_first_zero (CAP : Nat) (buf : List Nat)
    (h : buf.length = CAP) :
    ((∀ b ∈ buf, b ≠ 0) → (MicroStr.from_raw_buffer CAP buf).len = CAP)
    ∧ (∀ i, i < CAP → buf.getD i 0 = 0 → (∀ j, j < i → buf.getD j 0 ≠ 0) →
        (MicroStr.from_raw_buffer CAP buf).len = i) := by
  constructor
  · intro hall
    show firstZeroLen buf = CAP
    rw [firstZeroLen_of_all_nonzero buf hall, h]
  · intro i hi hz hnz
    show firstZeroLen buf = i
    exact firstZeroLen_of_first_zero buf i hz hnz (by omega)

/-- Witness for C10: the buffer "Raw\0\x07" of capacity 5 gets length 3. -/
theorem C10_witness :
    ([82, 97, 119, 0, 7] : List Nat).length = 5
    ∧ (MicroStr.from_raw_buffer 5 [82, 97, 119, 0, 7]).len = 3 := by
  refine ⟨by decide, ?_⟩
  exact (C10_from_raw_buffer_len_first_zero 5 [82, 97, 119, 0, 7] (by decide)).2
    3 (by decide) (by decide) (by decide)

end Micro
